import Mathlib

/-!
Verification development for the `organize` file-organizer utility
(`src/organize.cpp`).  The C++ program is shallowly embedded:

* the static `FOLDER_MAP` table and the derived extension→folder lookup
  (`build_extension_map` / `get_target_folder`) become association lists
  over `String`;
* `std::filesystem::path::extension()` on a filename becomes
  `path_extension` (last-dot rule with the `.`/`..`/leading-dot special
  cases);
* the filesystem state visible to the program is a structure `FS`:
  the direct entries of the root directory plus the entries sitting
  inside first-level subdirectories of root;
* `ensure_folders`, the per-entry body of `organize_files`' loop and the
  surrounding control flow of `main` become pure state-passing functions.
  Environmental failures of `create_directory` (permissions, disk full)
  are modelled by an oracle `ce : String → Option String` giving the
  error text when creation of a category folder would fail; `rename`
  failures that are determined by the modelled state (the target
  category path not being a directory) are modelled directly, other
  environmental rename failures are outside the model.
-/

set_option maxRecDepth 100000

/-- The static category table of `organize.cpp` (`FOLDER_MAP`),
in source order: folder name to recognized extensions. -/
def FOLDER_MAP : List (String × List String) :=
  [("Programs", [".exe", ".msi", ".bat", ".sh", ".apk", ".app", ".jar", ".cmd",
                 ".gadget", ".wsf", ".deb", ".rpm", ".bin", ".com", ".vbs", ".ps1"]),
   ("Documents", [".pdf", ".doc", ".docx", ".txt", ".ppt", ".pptx", ".xls", ".xlsx",
                  ".odt", ".csv", ".rtf", ".tex", ".epub", ".md", ".log", ".json",
                  ".xml", ".yaml", ".yml", ".ini"]),
   ("Compressed", [".zip", ".rar", ".7z", ".tar", ".gz", ".bz2", ".xz", ".iso",
                   ".cab", ".arj", ".lzh", ".ace", ".uue", ".tar.gz", ".tar.bz2", ".tar.xz"]),
   ("Music", [".mp3", ".wav", ".aac", ".flac", ".ogg", ".m4a", ".wma", ".alac",
              ".amr", ".aiff", ".opus", ".mid", ".midi"]),
   ("Video", [".mp4", ".mkv", ".avi", ".mov", ".wmv", ".flv", ".webm", ".mpeg",
              ".mpg", ".m4v", ".3gp", ".3g2", ".vob", ".ogv", ".rm", ".rmvb",
              ".ts", ".m2ts"]),
   ("Images", [".jpg", ".jpeg", ".png", ".gif", ".bmp", ".tiff", ".tif", ".webp",
               ".svg", ".ico", ".heic", ".raw", ".psd", ".ai", ".indd", ".eps",
               ".jfif", ".apng", ".avif", ".cr2", ".nef", ".orf", ".sr2"]),
   ("Others", [])]

/-- The category names, in table order. -/
def catNames : List String := FOLDER_MAP.map Prod.fst

/-- The inverted extension→folder association list that
`build_extension_map` stores in `g_extension_to_folder_map`.
Extensions are unique across categories,
so lookup in this list agrees with the C++ `unordered_map` no matter the
iteration order used to build it. -/
def g_extension_to_folder_map : List (String × String) :=
  FOLDER_MAP.foldl (fun m p => m ++ p.2.map (fun e => (e, p.1))) []

/-- ASCII lowercasing of a string, character by character: the effect of
`std::tolower` in the C locale as applied in `get_target_folder`. -/
def str_tolower (s : String) : String := ⟨s.data.map Char.toLower⟩

/-- ASCII uppercasing of a string (used to state case-insensitivity). -/
def str_toupper (s : String) : String := ⟨s.data.map Char.toUpper⟩

/-- Model of `get_target_folder`: lowercase the extension, look it up in the
extension map, default to `"Others"`. -/
def get_target_folder (file_ext : String) : String :=
  match g_extension_to_folder_map.find? (fun kv => kv.1 = str_tolower file_ext) with
  | some kv => kv.2
  | none => "Others"

theorem get_target_folder_congr (a b : String)
    (h : str_tolower a = str_tolower b) :
    get_target_folder a = get_target_folder b := by
  unfold get_target_folder
  rw [h]

theorem table_upper_lower :
    ∀ p ∈ FOLDER_MAP, ∀ e ∈ p.2, str_tolower (str_toupper e) = str_tolower e := by
  decide

/-- C5: classification is case-insensitive: for every extension `e`
listed in the category table, uppercasing `e`, and more generally
replacing `e` by any string with the same case-folding, does not change
the classified category. -/
theorem classify_case_insensitive :
    ∀ p ∈ FOLDER_MAP, ∀ e ∈ p.2,
      get_target_folder (str_toupper e) = get_target_folder e ∧
      ∀ v : String, str_tolower v = str_tolower e →
        get_target_folder v = get_target_folder e := by
  intro p hp e he
  refine ⟨get_target_folder_congr _ _ (table_upper_lower p hp e he), ?_⟩
  intro v hv
  exact get_target_folder_congr v e hv

/-- Witness for C5 at the concrete extension `".txt"` of `Documents`. -/
theorem classify_case_insensitive_witness :
    get_target_folder (str_toupper ".txt") = get_target_folder ".txt" ∧
    get_target_folder ".TxT" = get_target_folder ".txt" := by
  have h := classify_case_insensitive ("Documents",
    [".pdf", ".doc", ".docx", ".txt", ".ppt", ".pptx", ".xls", ".xlsx",
     ".odt", ".csv", ".rtf", ".tex", ".epub", ".md", ".log", ".json",
     ".xml", ".yaml", ".yml", ".ini"]) (by decide) ".txt" (by decide)
  exact ⟨h.1, h.2 ".TxT" (by decide)⟩

theorem ext_map_keys :
    ∀ kv ∈ g_extension_to_folder_map, ∃ p ∈ FOLDER_MAP, kv.1 ∈ p.2 := by
  decide

/-- C6: `get_target_folder` is total, and for every string whose
case-folded form is not a recognized extension of any category it
returns the default category `"Others"`. -/
theorem classify_default_others (e : String)
    (h : ∀ p ∈ FOLDER_MAP, str_tolower e ∉ p.2) :
    get_target_folder e = "Others" := by
  unfold get_target_folder
  have hnone : g_extension_to_folder_map.find?
      (fun kv => kv.1 = str_tolower e) = none := by
    rw [List.find?_eq_none]
    intro kv hkv
    simp only [decide_eq_true_eq]
    intro heq
    rcases ext_map_keys kv hkv with ⟨p, hp, hk⟩
    exact h p hp (heq ▸ hk)
  rw [hnone]

/-- Witness for C6 at the concrete unrecognized extension `".unknownext"`. -/
theorem classify_default_others_witness :
    get_target_folder ".unknownext" = "Others" :=
  classify_default_others ".unknownext" (by decide)

/-- The whitespace class of `trim_path`: `" \t\n\r\f\v"`. -/
def wsChars : List Char := [' ', '\x09', '\x0a', '\x0d', '\x0c', '\x0b']

/-- The quote class of `trim_path`: double and single quote. -/
def quoteChars : List Char := ['\x22', '\x27']

/-- Model of `find_first_not_of` over a character class:
index of the first character not in `cs`, if any. -/
def find_first_not_of (cs : List Char) : List Char → Option Nat
  | [] => none
  | a :: t =>
      if a ∈ cs then (find_first_not_of cs t).map (· + 1) else some 0

/-- One pass of `trim_path`: find the first and last index not in `cs`
and keep the substring between them (empty if every character is in
`cs`).  `find_last_not_of` is expressed through `find_first_not_of` on
the reversed list: the last index not in `cs` is `length - 1 - j` when
`j` is the first such index counted from the back. -/
def trim_step (cs : List Char) (l : List Char) : List Char :=
  match find_first_not_of cs l with
  | none => []
  | some first =>
      match find_first_not_of cs l.reverse with
      | none => []
      | some j => (l.drop first).take (l.length - 1 - j - first + 1)

/-- Model of `trim_path`: strip surrounding whitespace, then surrounding quotes. -/
def trim_path (s : String) : String :=
  ⟨trim_step quoteChars (trim_step wsChars s.data)⟩

/-- Modelled from the spec: strip leading, then trailing, characters of
class `cs` (the "strips leading/trailing" wording of §4.4). -/
def strip_ends (cs : List Char) (l : List Char) : List Char :=
  ((l.dropWhile (fun c => decide (c ∈ cs))).reverse.dropWhile
    (fun c => decide (c ∈ cs))).reverse

/-- Modelled from the spec: whitespace-strip, then quote-strip. -/
def trim_spec (s : String) : String :=
  ⟨strip_ends quoteChars (strip_ends wsChars s.data)⟩

theorem ffno_cons_pos {cs : List Char} {a : Char} {t : List Char} (ha : a ∈ cs) :
    find_first_not_of cs (a :: t) = (find_first_not_of cs t).map (· + 1) := by
  show (if a ∈ cs then (find_first_not_of cs t).map (· + 1) else some 0) = _
  rw [if_pos ha]

theorem ffno_cons_neg {cs : List Char} {a : Char} {t : List Char} (ha : a ∉ cs) :
    find_first_not_of cs (a :: t) = some 0 := by
  show (if a ∈ cs then (find_first_not_of cs t).map (· + 1) else some 0) = _
  rw [if_neg ha]

theorem ffno_eq_none (cs : List Char) :
    ∀ l : List Char, find_first_not_of cs l = none ↔ ∀ c ∈ l, c ∈ cs := by
  intro l
  induction l with
  | nil =>
      constructor
      · intro _ c hc
        cases hc
      · intro _
        rfl
  | cons a t ih =>
      by_cases ha : a ∈ cs
      · rw [ffno_cons_pos ha, Option.map_eq_none']
        constructor
        · intro h c hc
          rcases List.mem_cons.mp hc with rfl | hc
          · exact ha
          · exact (ih.mp h) c hc
        · intro h
          exact ih.mpr (fun c hc => h c (List.mem_cons_of_mem _ hc))
      · rw [ffno_cons_neg ha]
        constructor
        · intro h
          cases h
        · intro h
          exact absurd (h a (List.mem_cons_self _ _)) ha

theorem ffno_decomp (cs : List Char) :
    ∀ (l : List Char) (i : Nat), find_first_not_of cs l = some i →
      ∃ w h t, l = w ++ h :: t ∧ w.length = i ∧
        (∀ c ∈ w, c ∈ cs) ∧ h ∉ cs := by
  intro l
  induction l with
  | nil =>
      intro i h
      cases h
  | cons a t ih =>
      intro i h
      by_cases ha : a ∈ cs
      · rw [ffno_cons_pos ha, Option.map_eq_some'] at h
        rcases h with ⟨i', hi', rfl⟩
        rcases ih i' hi' with ⟨w, hh, tt, rfl, rfl, hw, hnh⟩
        refine ⟨a :: w, hh, tt, rfl, rfl, ?_, hnh⟩
        intro c hc
        rcases List.mem_cons.mp hc with rfl | hc
        · exact ha
        · exact hw c hc
      · rw [ffno_cons_neg ha] at h
        have h0 : i = 0 := (Option.some_inj.mp h).symm
        subst h0
        refine ⟨[], a, t, rfl, rfl, ?_, ha⟩
        intro c hc
        cases hc

theorem trim_step_of_none {cs l : List Char}
    (h : find_first_not_of cs l = none) : trim_step cs l = [] := by
  unfold trim_step
  rw [h]

theorem trim_step_of_some {cs l : List Char} {first j : Nat}
    (h1 : find_first_not_of cs l = some first)
    (h2 : find_first_not_of cs l.reverse = some j) :
    trim_step cs l = (l.drop first).take (l.length - 1 - j - first + 1) := by
  unfold trim_step
  rw [h1, h2]

theorem dropWhile_all_skip {cs : List Char} {w : List Char} (l : List Char)
    (hw : ∀ c ∈ w, c ∈ cs) :
    (w ++ l).dropWhile (fun c => decide (c ∈ cs)) =
      l.dropWhile (fun c => decide (c ∈ cs)) := by
  refine List.dropWhile_append_of_pos ?_
  intro a hha
  simpa using hw a hha

theorem dropWhile_head_stop {cs : List Char} {h : Char} (t : List Char)
    (hh : h ∉ cs) :
    (h :: t).dropWhile (fun c => decide (c ∈ cs)) = h :: t := by
  refine List.dropWhile_cons_of_neg ?_
  simpa using hh

theorem trim_step_eq (cs : List Char) (l : List Char) :
    trim_step cs l = strip_ends cs l := by
  cases hf : find_first_not_of cs l with
  | none =>
      have hall := (ffno_eq_none cs l).mp hf
      have h1 : l.dropWhile (fun c => decide (c ∈ cs)) = [] := by
        rw [List.dropWhile_eq_nil_iff]
        intro x hx
        simpa using hall x hx
      rw [trim_step_of_none hf, strip_ends, h1]
      rfl
  | some i =>
      rcases ffno_decomp cs l i hf with ⟨w, h, t, rfl, rfl, hw, hh⟩
      have hrev : (w ++ h :: t).reverse = (h :: t).reverse ++ w.reverse := by
        simp
      cases hg : find_first_not_of cs (w ++ h :: t).reverse with
      | none =>
          exfalso
          have hall := (ffno_eq_none cs _).mp hg
          refine hh (hall h ?_)
          rw [hrev]
          simp
      | some j =>
          rcases ffno_decomp cs _ j hg with ⟨w', h', t', hr, hwl', hw', hh'⟩
          rw [hrev] at hr
          rcases List.append_eq_append_iff.mp hr with ⟨a', ha1, _⟩ | ⟨c', hc1, hc2⟩
          · exfalso
            refine hh (hw' h ?_)
            rw [ha1]
            refine List.mem_append_left _ ?_
            simp
          · cases c' with
            | nil =>
                exfalso
                simp only [List.nil_append] at hc2
                have hmem : h' ∈ w.reverse := by
                  rw [← hc2]
                  simp
                exact hh' (hw h' (List.mem_reverse.mp hmem))
            | cons x c'' =>
                obtain ⟨rfl, rfl⟩ : h' = x ∧ t' = c'' ++ w.reverse := by
                  constructor
                  · exact (List.cons_eq_cons.mp hc2).1
                  · exact (List.cons_eq_cons.mp hc2).2
                have hsplit : (h :: t).reverse = w' ++ h' :: c'' := hc1
                have hlen : t.length = j + c''.length := by
                  have hle := congrArg List.length hsplit
                  simp [hwl'] at hle
                  omega
                have hcount : (w ++ h :: t).length - 1 - j - w.length + 1 =
                    c''.length + 1 := by
                  simp only [List.length_append, List.length_cons]
                  omega
                have hht : h :: t = (c''.reverse ++ [h']) ++ w'.reverse := by
                  have hq := congrArg List.reverse hsplit
                  simpa using hq
                have hdrop : (w ++ h :: t).drop w.length = h :: t :=
                  List.drop_left w (h :: t)
                have htake : (h :: t).take (c''.length + 1) =
                    c''.reverse ++ [h'] := by
                  rw [hht]
                  exact List.take_left' (by simp)
                have lhs_eq : trim_step cs (w ++ h :: t) =
                    c''.reverse ++ [h'] := by
                  rw [trim_step_of_some hf hg, hdrop, hcount, htake]
                have hdw1 : (w ++ h :: t).dropWhile (fun c => decide (c ∈ cs)) =
                    h :: t := by
                  rw [dropWhile_all_skip _ hw, dropWhile_head_stop _ hh]
                have hdw2 : (h :: t).reverse.dropWhile (fun c => decide (c ∈ cs)) =
                    h' :: c'' := by
                  rw [hsplit, dropWhile_all_skip _ hw', dropWhile_head_stop _ hh']
                have rhs_eq : strip_ends cs (w ++ h :: t) =
                    c''.reverse ++ [h'] := by
                  rw [strip_ends, hdw1, hdw2]
                  simp
                rw [lhs_eq, rhs_eq]

theorem trim_step_nil_of_all (cs : List Char) (l : List Char)
    (h : ∀ c ∈ l, c ∈ cs) : trim_step cs l = [] :=
  trim_step_of_none ((ffno_eq_none cs l).mpr h)

/-- C9 (amended): `trim_path` coincides everywhere with the spec-side
transform "strip leading/trailing whitespace, then leading/trailing
quotes, in that order", it is a total pure function, and every input
whose whitespace-trimmed form consists only of quote characters (in
particular every all-whitespace input) trims to the empty string.  The
original "empty on every all-whitespace/quote input" is false: a
whitespace character lying between quote characters survives both
passes. -/
theorem trim_path_amended :
    (∀ s : String, trim_path s = trim_spec s) ∧
    (∀ s : String, (∀ c ∈ trim_step wsChars s.data, c ∈ quoteChars) →
      trim_path s = "") := by
  constructor
  · intro s
    show (⟨trim_step quoteChars (trim_step wsChars s.data)⟩ : String) = _
    rw [trim_step_eq, trim_step_eq, trim_spec]
  · intro s hs
    show (⟨trim_step quoteChars (trim_step wsChars s.data)⟩ : String) = ""
    rw [trim_step_nil_of_all quoteChars _ hs]

/-- Witness for C9 (amended) at concrete inputs: space–quote–a–quote–space
refines the spec transform, and space–quote–tab trims to empty. -/
theorem trim_path_amended_witness :
    trim_path (String.mk [' ', '\x22', 'a', '\x22', ' ']) =
      trim_spec (String.mk [' ', '\x22', 'a', '\x22', ' ']) ∧
    trim_path (String.mk [' ', '\x27', '\x09']) = "" :=
  ⟨trim_path_amended.1 _, trim_path_amended.2 _ (by decide)⟩

/-- C9 counterexample: the three-character input quote–space–quote
consists only of whitespace and quote characters, yet `trim_path` keeps
the middle space: the result is `" "`, not the empty string. -/
theorem trim_path_cex :
    (∀ c ∈ (String.mk ['\x27', ' ', '\x27']).data,
        c ∈ wsChars ∨ c ∈ quoteChars) ∧
    trim_path (String.mk ['\x27', ' ', '\x27']) = " " ∧
    trim_path (String.mk ['\x27', ' ', '\x27']) ≠ "" := by
  decide

/-- Index of the last `'.'` in a character list, if any. -/
def last_dot_idx : List Char → Option Nat
  | [] => none
  | c :: t =>
      match last_dot_idx t with
      | some i => some (i + 1)
      | none => if c = '.' then some 0 else none

/-- Model of `std::filesystem::path::extension()` of a plain filename, as used on
each directory entry: empty for `"."`, `".."`, for names without a dot,
and for names whose only dot is the leading character; otherwise the
substring from the last dot (inclusive) to the end. -/
def path_extension (f : String) : String :=
  if f = "." ∨ f = ".." then ""
  else
    match last_dot_idx f.data with
    | none => ""
    | some 0 => ""
    | some i => ⟨f.data.drop i⟩

/-- Kind of a directory entry as the program distinguishes them:
regular file, directory, or anything else (symlink, special file). -/
inductive EntryKind
  | file
  | dir
  | other
deriving DecidableEq

/-- A direct child of the root directory: its filename and kind. -/
structure Entry where
  name : String
  kind : EntryKind
deriving DecidableEq

/-- The filesystem state the program observes and mutates:
`rootEntries` are the direct children of the target directory, `sub`
holds the pairs (subdirectory name, entry name) of entries that sit
inside first-level subdirectories of the target directory. -/
structure FS where
  rootEntries : List Entry
  sub : List (String × String)
deriving DecidableEq

/-- Console outcome of one processed file: moved, collision notice, or
a reported per-file move error. -/
inductive Event
  | moved (name folder : String)
  | collision (name folder : String)
  | moveError (name folder : String)
deriving DecidableEq

/-- The filename an event is about. -/
def Event.fname : Event → String
  | .moved n _ => n
  | .collision n _ => n
  | .moveError n _ => n

/-- Whether an event records a successful move. -/
def Event.isMoved : Event → Bool
  | .moved _ _ => true
  | _ => false

/-- The body of `ensure_folders` over a list of category names: for each
name, if no entry of that name exists directly under root, try to create
the directory; a creation failure (`ce c = some m`) throws, i.e. stops
the whole pass, keeping the directories created so far. -/
def ensure_go (ce : String → Option String) :
    List String → FS → FS × Option String
  | [], st => (st, none)
  | c :: r, st =>
      if st.rootEntries.any (fun x => x.name = c) then ensure_go ce r st
      else
        match ce c with
        | none => ensure_go ce r ⟨st.rootEntries ++ [⟨c, EntryKind.dir⟩], st.sub⟩
        | some m =>
            (st, some ("Error creating directory " ++ c ++ ": " ++ m))

/-- Model of `ensure_folders`: provision one subdirectory per category name. -/
def ensure_folders (ce : String → Option String) (s : FS) : FS × Option String :=
  ensure_go ce catNames s

/-- The per-entry body of the loop in `organize_files`: skip non-files
and the program itself, skip extensionless names, classify, then skip
with a notice on target collision, rename when the target directory is
available, and report a per-file error otherwise (the rename throws when
the category path is not a directory). -/
def processEntry (self : Option String) (st : FS) (e : Entry) : FS × List Event :=
  if e.kind = EntryKind.file ∧ self ≠ some e.name then
    if path_extension e.name = "" then (st, [])
    else
      if (get_target_folder (path_extension e.name), e.name) ∈ st.sub then
        (st, [Event.collision e.name (get_target_folder (path_extension e.name))])
      else if Entry.mk (get_target_folder (path_extension e.name)) EntryKind.dir
          ∈ st.rootEntries then
        (⟨st.rootEntries.filter (fun x => x.name ≠ e.name),
          st.sub ++ [(get_target_folder (path_extension e.name), e.name)]⟩,
         [Event.moved e.name (get_target_folder (path_extension e.name))])
      else (st, [Event.moveError e.name (get_target_folder (path_extension e.name))])
  else (st, [])

/-- The iteration of `organize_files` over the snapshot of directory
entries taken when the iterator is created (after folder provisioning). -/
def organize_loop (self : Option String) : List Entry → FS → FS × List Event
  | [], st => (st, [])
  | e :: r, st =>
      let p := processEntry self st e
      let q := organize_loop self r p.1
      (q.1, p.2 ++ q.2)

/-- Model of `organize_files`: provision folders, then process every direct
entry of root.  A provisioning failure propagates (second component);
the loop itself never throws. -/
def organize_files (ce : String → Option String) (self : Option String)
    (s : FS) : (FS × List Event) × Option String :=
  match ensure_folders ce s with
  | (s1, some m) => ((s1, []), some m)
  | (s1, none) => (organize_loop self s1.rootEntries s1, none)

/-- The exit code produced by `main` once the path checks have passed:
1 when the organize run throws (folder provisioning failed), 0 else. -/
def main_exit (ce : String → Option String) (self : Option String)
    (s : FS) : Nat :=
  match (organize_files ce self s).2 with
  | some _ => 1
  | none => 0

theorem ensure_go_cons_exists {ce : String → Option String} {c : String}
    {r : List String} {st : FS}
    (h : st.rootEntries.any (fun x => x.name = c) = true) :
    ensure_go ce (c :: r) st = ensure_go ce r st := by
  show (if st.rootEntries.any (fun x => x.name = c) then ensure_go ce r st
    else match ce c with
      | none => ensure_go ce r ⟨st.rootEntries ++ [⟨c, EntryKind.dir⟩], st.sub⟩
      | some m =>
          (st, some ("Error creating directory " ++ c ++ ": " ++ m))) = _
  rw [h]
  rfl

theorem ensure_go_cons_create {ce : String → Option String} {c : String}
    {r : List String} {st : FS}
    (h : st.rootEntries.any (fun x => x.name = c) = false)
    (hc : ce c = none) :
    ensure_go ce (c :: r) st =
      ensure_go ce r ⟨st.rootEntries ++ [⟨c, EntryKind.dir⟩], st.sub⟩ := by
  show (if st.rootEntries.any (fun x => x.name = c) then ensure_go ce r st
    else match ce c with
      | none => ensure_go ce r ⟨st.rootEntries ++ [⟨c, EntryKind.dir⟩], st.sub⟩
      | some m =>
          (st, some ("Error creating directory " ++ c ++ ": " ++ m))) = _
  rw [h, hc]
  simp

theorem ensure_go_cons_fail {ce : String → Option String} {c : String}
    {r : List String} {st : FS} {m : String}
    (h : st.rootEntries.any (fun x => x.name = c) = false)
    (hc : ce c = some m) :
    ensure_go ce (c :: r) st =
      (st, some ("Error creating directory " ++ c ++ ": " ++ m)) := by
  show (if st.rootEntries.any (fun x => x.name = c) then ensure_go ce r st
    else match ce c with
      | none => ensure_go ce r ⟨st.rootEntries ++ [⟨c, EntryKind.dir⟩], st.sub⟩
      | some m =>
          (st, some ("Error creating directory " ++ c ++ ": " ++ m))) = _
  rw [h, hc]
  simp

theorem ensure_go_sub (ce : String → Option String) :
    ∀ (l : List String) (st : FS), (ensure_go ce l st).1.sub = st.sub := by
  intro l
  induction l with
  | nil => intro st; rfl
  | cons c r ih =>
      intro st
      by_cases h : st.rootEntries.any (fun x => x.name = c) = true
      · rw [ensure_go_cons_exists h]
        exact ih st
      · rw [Bool.not_eq_true] at h
        cases hc : ce c with
        | none =>
            rw [ensure_go_cons_create h hc]
            exact ih _
        | some m =>
            rw [ensure_go_cons_fail h hc]

theorem ensure_go_mono (ce : String → Option String) :
    ∀ (l : List String) (st : FS) (x : Entry), x ∈ st.rootEntries →
      x ∈ (ensure_go ce l st).1.rootEntries := by
  intro l
  induction l with
  | nil => intro st x hx; exact hx
  | cons c r ih =>
      intro st x hx
      by_cases h : st.rootEntries.any (fun x => x.name = c) = true
      · rw [ensure_go_cons_exists h]
        exact ih st x hx
      · rw [Bool.not_eq_true] at h
        cases hc : ce c with
        | none =>
            rw [ensure_go_cons_create h hc]
            exact ih _ x (List.mem_append_left _ hx)
        | some m =>
            rw [ensure_go_cons_fail h hc]
            exact hx

theorem ensure_go_exists_all (ce : String → Option String) :
    ∀ (l : List String) (st st' : FS), ensure_go ce l st = (st', none) →
      ∀ c ∈ l, ∃ x ∈ st'.rootEntries, x.name = c := by
  intro l
  induction l with
  | nil =>
      intro st st' _ c hc
      cases hc
  | cons c0 r ih =>
      intro st st' hrun c hc
      by_cases h : st.rootEntries.any (fun x => x.name = c0) = true
      · rw [ensure_go_cons_exists h] at hrun
        rcases List.mem_cons.mp hc with rfl | hc
        · rcases List.any_eq_true.mp h with ⟨x, hx, hxc⟩
          refine ⟨x, ?_, by simpa using hxc⟩
          have := ensure_go_mono ce r st x hx
          rw [hrun] at this
          exact this
        · exact ih st st' hrun c hc
      · rw [Bool.not_eq_true] at h
        cases hc0 : ce c0 with
        | none =>
            rw [ensure_go_cons_create h hc0] at hrun
            rcases List.mem_cons.mp hc with rfl | hc
            · refine ⟨⟨c, EntryKind.dir⟩, ?_, rfl⟩
              have hmem : (⟨c, EntryKind.dir⟩ : Entry) ∈
                  (⟨st.rootEntries ++ [⟨c, EntryKind.dir⟩], st.sub⟩ : FS).rootEntries := by
                simp
              have := ensure_go_mono ce r
                ⟨st.rootEntries ++ [⟨c, EntryKind.dir⟩], st.sub⟩ _ hmem
              rw [hrun] at this
              exact this
            · exact ih _ st' hrun c hc
        | some m =>
            rw [ensure_go_cons_fail h hc0] at hrun
            cases hrun

theorem ensure_go_dir_mem (ce : String → Option String) :
    ∀ (l : List String) (st st' : FS), ensure_go ce l st = (st', none) →
      ∀ c ∈ l, (∀ x ∈ st.rootEntries, x.name = c → x.kind = EntryKind.dir) →
        Entry.mk c EntryKind.dir ∈ st'.rootEntries := by
  intro l
  induction l with
  | nil =>
      intro st st' _ c hc
      cases hc
  | cons c0 r ih =>
      intro st st' hrun c hc hdir
      by_cases h : st.rootEntries.any (fun x => x.name = c0) = true
      · rw [ensure_go_cons_exists h] at hrun
        rcases List.mem_cons.mp hc with rfl | hc
        · rcases List.any_eq_true.mp h with ⟨x, hx, hxc⟩
          have hxc' : x.name = c := by simpa using hxc
          have hxd : x.kind = EntryKind.dir := hdir x hx hxc'
          have hxe : x = ⟨c, EntryKind.dir⟩ := by
            cases x
            simp_all
          have := ensure_go_mono ce r st x hx
          rw [hrun, hxe] at this
          exact this
        · exact ih st st' hrun c hc hdir
      · rw [Bool.not_eq_true] at h
        cases hc0 : ce c0 with
        | none =>
            rw [ensure_go_cons_create h hc0] at hrun
            rcases List.mem_cons.mp hc with rfl | hc
            · have hmem : (⟨c, EntryKind.dir⟩ : Entry) ∈
                  (⟨st.rootEntries ++ [⟨c, EntryKind.dir⟩], st.sub⟩ : FS).rootEntries := by
                simp
              have := ensure_go_mono ce r
                ⟨st.rootEntries ++ [⟨c, EntryKind.dir⟩], st.sub⟩ _ hmem
              rw [hrun] at this
              exact this
            · refine ih _ st' hrun c hc ?_
              intro x hx hxc
              rcases List.mem_append.mp hx with hx | hx
              · exact hdir x hx hxc
              · rcases List.mem_singleton.mp hx with rfl
                rfl
        | some m =>
            rw [ensure_go_cons_fail h hc0] at hrun
            cases hrun

theorem ensure_go_noop (ce : String → Option String) :
    ∀ (l : List String) (st : FS),
      (∀ c ∈ l, ∃ x ∈ st.rootEntries, x.name = c) →
      ensure_go ce l st = (st, none) := by
  intro l
  induction l with
  | nil => intro st _; rfl
  | cons c0 r ih =>
      intro st hall
      have h : st.rootEntries.any (fun x => x.name = c0) = true := by
        rcases hall c0 (List.mem_cons_self _ _) with ⟨x, hx, hxc⟩
        exact List.any_eq_true.mpr ⟨x, hx, by simpa using hxc⟩
      rw [ensure_go_cons_exists h]
      exact ih st (fun c hc => hall c (List.mem_cons_of_mem _ hc))

theorem ensure_go_fail (ce : String → Option String) :
    ∀ (l : List String) (st : FS),
      (∃ c ∈ l, (∀ x ∈ st.rootEntries, x.name ≠ c) ∧ ce c ≠ none) →
      ∃ st' msg, ensure_go ce l st = (st', some msg) ∧
        st'.sub = st.sub ∧
        (∀ x ∈ st.rootEntries, x ∈ st'.rootEntries) ∧
        ∃ c' m', c' ∈ l ∧ ce c' = some m' ∧
          msg = "Error creating directory " ++ c' ++ ": " ++ m' := by
  intro l
  induction l with
  | nil =>
      intro st h
      rcases h with ⟨c, hc, _⟩
      cases hc
  | cons c0 r ih =>
      intro st h
      rcases h with ⟨c, hc, habs, hfail⟩
      by_cases hany : st.rootEntries.any (fun x => x.name = c0) = true
      · rw [ensure_go_cons_exists hany]
        have hcr : c ∈ r := by
          rcases List.mem_cons.mp hc with rfl | hcr
          · exfalso
            rcases List.any_eq_true.mp hany with ⟨x, hx, hxc⟩
            exact habs x hx (by simpa using hxc)
          · exact hcr
        rcases ih st ⟨c, hcr, habs, hfail⟩ with
          ⟨st', msg, hrun, hsub, hmem, c', m', hc', hcem, hmsg⟩
        exact ⟨st', msg, hrun, hsub, hmem,
          c', m', List.mem_cons_of_mem _ hc', hcem, hmsg⟩
      · rw [Bool.not_eq_true] at hany
        cases hc0 : ce c0 with
        | some m =>
            rw [ensure_go_cons_fail hany hc0]
            exact ⟨st, _, rfl, rfl, fun x hx => hx,
              c0, m, List.mem_cons_self _ _, hc0, rfl⟩
        | none =>
            rw [ensure_go_cons_create hany hc0]
            have hcne : c ≠ c0 := by
              intro heq
              rw [heq, hc0] at hfail
              exact hfail rfl
            have hcr : c ∈ r := by
              rcases List.mem_cons.mp hc with rfl | hcr
              · exact absurd rfl hcne
              · exact hcr
            have habs' : ∀ x ∈
                (⟨st.rootEntries ++ [⟨c0, EntryKind.dir⟩], st.sub⟩ : FS).rootEntries,
                x.name ≠ c := by
              intro x hx
              rcases List.mem_append.mp hx with hx | hx
              · exact habs x hx
              · rcases List.mem_singleton.mp hx with rfl
                simpa using hcne.symm
            rcases ih ⟨st.rootEntries ++ [⟨c0, EntryKind.dir⟩], st.sub⟩
              ⟨c, hcr, habs', hfail⟩ with
              ⟨st', msg, hrun, hsub, hmem, c', m', hc', hcem, hmsg⟩
            refine ⟨st', msg, hrun, hsub, ?_,
              c', m', List.mem_cons_of_mem _ hc', hcem, hmsg⟩
            intro x hx
            exact hmem x (List.mem_append_left _ hx)

/-- C3 (amended): after `ensure_folders(root)` succeeds, every category
name has a corresponding entry directly under root; every category name
that had no preexisting entry of that name now has a newly created
subdirectory; and calling `ensure_folders` again is a no-op.  The
original "existing subdirectory for every category" fails when a
non-directory entry bearing a category name preexists: the code tests
bare existence (`fs::exists`), not directory-ness. -/
theorem ensure_folders_amended (ce : String → Option String) (s s' : FS)
    (h : ensure_folders ce s = (s', none)) :
    (∀ c ∈ catNames, ∃ x ∈ s'.rootEntries, x.name = c) ∧
    (∀ c ∈ catNames, (∀ x ∈ s.rootEntries, x.name ≠ c) →
      Entry.mk c EntryKind.dir ∈ s'.rootEntries) ∧
    ensure_folders ce s' = (s', none) := by
  refine ⟨ensure_go_exists_all ce catNames s s' h, ?_, ?_⟩
  · intro c hc habs
    refine ensure_go_dir_mem ce catNames s s' h c hc ?_
    intro x hx hxc
    exact absurd hxc (habs x hx)
  · exact ensure_go_noop ce catNames s'
      (ensure_go_exists_all ce catNames s s' h)

/-- Witness for C3 (amended): a concrete successful run on an empty
root creates all seven category directories, and re-running is a no-op. -/
theorem ensure_folders_amended_witness :
    ensure_folders (fun _ => none) (FS.mk [] []) =
      (FS.mk [⟨"Programs", EntryKind.dir⟩, ⟨"Documents", EntryKind.dir⟩,
              ⟨"Compressed", EntryKind.dir⟩, ⟨"Music", EntryKind.dir⟩,
              ⟨"Video", EntryKind.dir⟩, ⟨"Images", EntryKind.dir⟩,
              ⟨"Others", EntryKind.dir⟩] [], none) ∧
    ((∀ c ∈ catNames, ∃ x ∈ (FS.mk [⟨"Programs", EntryKind.dir⟩,
              ⟨"Documents", EntryKind.dir⟩, ⟨"Compressed", EntryKind.dir⟩,
              ⟨"Music", EntryKind.dir⟩, ⟨"Video", EntryKind.dir⟩,
              ⟨"Images", EntryKind.dir⟩, ⟨"Others", EntryKind.dir⟩] []).rootEntries,
        x.name = c) ∧
     (∀ c ∈ catNames, (∀ x ∈ (FS.mk [] []).rootEntries, x.name ≠ c) →
        Entry.mk c EntryKind.dir ∈ (FS.mk [⟨"Programs", EntryKind.dir⟩,
              ⟨"Documents", EntryKind.dir⟩, ⟨"Compressed", EntryKind.dir⟩,
              ⟨"Music", EntryKind.dir⟩, ⟨"Video", EntryKind.dir⟩,
              ⟨"Images", EntryKind.dir⟩, ⟨"Others", EntryKind.dir⟩] []).rootEntries) ∧
     ensure_folders (fun _ => none) (FS.mk [⟨"Programs", EntryKind.dir⟩,
              ⟨"Documents", EntryKind.dir⟩, ⟨"Compressed", EntryKind.dir⟩,
              ⟨"Music", EntryKind.dir⟩, ⟨"Video", EntryKind.dir⟩,
              ⟨"Images", EntryKind.dir⟩, ⟨"Others", EntryKind.dir⟩] []) =
        (FS.mk [⟨"Programs", EntryKind.dir⟩, ⟨"Documents", EntryKind.dir⟩,
              ⟨"Compressed", EntryKind.dir⟩, ⟨"Music", EntryKind.dir⟩,
              ⟨"Video", EntryKind.dir⟩, ⟨"Images", EntryKind.dir⟩,
              ⟨"Others", EntryKind.dir⟩] [], none)) :=
  ⟨by decide, ensure_folders_amended (fun _ => none) _ _ (by decide)⟩

/-- C3 counterexample: with a regular file named `"Music"` at root,
`ensure_folders` succeeds but no `Music` subdirectory exists afterwards:
the existence check accepts the file and skips creation. -/
theorem ensure_folders_cex :
    ensure_folders (fun _ => none) (FS.mk [⟨"Music", EntryKind.file⟩] []) =
      (FS.mk [⟨"Music", EntryKind.file⟩, ⟨"Programs", EntryKind.dir⟩,
              ⟨"Documents", EntryKind.dir⟩, ⟨"Compressed", EntryKind.dir⟩,
              ⟨"Video", EntryKind.dir⟩, ⟨"Images", EntryKind.dir⟩,
              ⟨"Others", EntryKind.dir⟩] [], none) ∧
    Entry.mk "Music" EntryKind.dir ∉
      (FS.mk [⟨"Music", EntryKind.file⟩, ⟨"Programs", EntryKind.dir⟩,
              ⟨"Documents", EntryKind.dir⟩, ⟨"Compressed", EntryKind.dir⟩,
              ⟨"Video", EntryKind.dir⟩, ⟨"Images", EntryKind.dir⟩,
              ⟨"Others", EntryKind.dir⟩] []).rootEntries := by
  decide

theorem organize_files_of_fail {ce : String → Option String}
    {self : Option String} {s sE : FS} {m : String}
    (h : ensure_folders ce s = (sE, some m)) :
    organize_files ce self s = ((sE, []), some m) := by
  unfold organize_files
  rw [h]

theorem organize_files_of_ok {ce : String → Option String}
    {self : Option String} {s sE : FS}
    (h : ensure_folders ce s = (sE, none)) :
    organize_files ce self s = (organize_loop self sE.rootEntries sE, none) := by
  unfold organize_files
  rw [h]

/-- C4: if creating some (absent) category subdirectory fails, the whole
run aborts as fatal: `organize_files` throws with a message naming the
failing category path and the underlying cause, `main` exits with code
1, and no file has been moved (subdirectory contents unchanged, every
original root entry still present, no per-file events emitted). -/
theorem ensure_failure_fatal (ce : String → Option String)
    (self : Option String) (s : FS)
    (h : ∃ c ∈ catNames, (∀ x ∈ s.rootEntries, x.name ≠ c) ∧ ce c ≠ none) :
    ∃ s' msg,
      organize_files ce self s = ((s', []), some msg) ∧
      main_exit ce self s = 1 ∧
      s'.sub = s.sub ∧
      (∀ x ∈ s.rootEntries, x ∈ s'.rootEntries) ∧
      ∃ c' m', c' ∈ catNames ∧ ce c' = some m' ∧
        msg = "Error creating directory " ++ c' ++ ": " ++ m' := by
  rcases ensure_go_fail ce catNames s h with
    ⟨st', msg, hrun, hsub, hmem, hex⟩
  have hrun' : ensure_folders ce s = (st', some msg) := hrun
  have horg : organize_files ce self s = ((st', []), some msg) :=
    organize_files_of_fail hrun'
  refine ⟨st', msg, horg, ?_, hsub, hmem, hex⟩
  unfold main_exit
  rw [horg]

/-- Witness for C4: creation of the absent `"Music"` folder is denied on
an empty root; the run fails fatally with exit code 1 and no moves. -/
theorem ensure_failure_fatal_witness :
    (∃ c ∈ catNames,
        (∀ x ∈ (FS.mk [] []).rootEntries, x.name ≠ c) ∧
        (fun n => if n = "Music" then some "denied" else none) c ≠ none) ∧
    (∃ s' msg,
      organize_files (fun n => if n = "Music" then some "denied" else none)
          none (FS.mk [] []) = ((s', []), some msg) ∧
      main_exit (fun n => if n = "Music" then some "denied" else none)
          none (FS.mk [] []) = 1 ∧
      s'.sub = (FS.mk [] []).sub ∧
      (∀ x ∈ (FS.mk [] []).rootEntries, x ∈ s'.rootEntries) ∧
      ∃ c' m', c' ∈ catNames ∧
        (fun n => if n = "Music" then some "denied" else none) c' = some m' ∧
        msg = "Error creating directory " ++ c' ++ ": " ++ m') :=
  ⟨by decide, ensure_failure_fatal _ none _ (by decide)⟩

/-- The state-dependent reasons for which `processEntry` performs no
move on a regular file: it is the program itself, has no extension,
collides at the target, or the target category path is not an available
directory. -/
def skipCond (self : Option String) (st : FS) (e : Entry) : Prop :=
  self = some e.name ∨ path_extension e.name = "" ∨
  (get_target_folder (path_extension e.name), e.name) ∈ st.sub ∨
  Entry.mk (get_target_folder (path_extension e.name)) EntryKind.dir ∉
    st.rootEntries

theorem processEntry_skip_kind {self : Option String} {st : FS} {e : Entry}
    (h : ¬(e.kind = EntryKind.file ∧ self ≠ some e.name)) :
    processEntry self st e = (st, []) := by
  unfold processEntry
  rw [if_neg h]

theorem processEntry_skip_ext {self : Option String} {st : FS} {e : Entry}
    (h1 : e.kind = EntryKind.file ∧ self ≠ some e.name)
    (h2 : path_extension e.name = "") :
    processEntry self st e = (st, []) := by
  unfold processEntry
  rw [if_pos h1, if_pos h2]

theorem processEntry_collision {self : Option String} {st : FS} {e : Entry}
    (h1 : e.kind = EntryKind.file ∧ self ≠ some e.name)
    (h2 : path_extension e.name ≠ "")
    (h3 : (get_target_folder (path_extension e.name), e.name) ∈ st.sub) :
    processEntry self st e =
      (st, [Event.collision e.name (get_target_folder (path_extension e.name))]) := by
  unfold processEntry
  rw [if_pos h1, if_neg h2, if_pos h3]

theorem processEntry_moved {self : Option String} {st : FS} {e : Entry}
    (h1 : e.kind = EntryKind.file ∧ self ≠ some e.name)
    (h2 : path_extension e.name ≠ "")
    (h3 : (get_target_folder (path_extension e.name), e.name) ∉ st.sub)
    (h4 : Entry.mk (get_target_folder (path_extension e.name)) EntryKind.dir ∈
      st.rootEntries) :
    processEntry self st e =
      (⟨st.rootEntries.filter (fun x => x.name ≠ e.name),
        st.sub ++ [(get_target_folder (path_extension e.name), e.name)]⟩,
       [Event.moved e.name (get_target_folder (path_extension e.name))]) := by
  unfold processEntry
  rw [if_pos h1, if_neg h2, if_neg h3, if_pos h4]

theorem processEntry_error {self : Option String} {st : FS} {e : Entry}
    (h1 : e.kind = EntryKind.file ∧ self ≠ some e.name)
    (h2 : path_extension e.name ≠ "")
    (h3 : (get_target_folder (path_extension e.name), e.name) ∉ st.sub)
    (h4 : Entry.mk (get_target_folder (path_extension e.name)) EntryKind.dir ∉
      st.rootEntries) :
    processEntry self st e =
      (st, [Event.moveError e.name (get_target_folder (path_extension e.name))]) := by
  unfold processEntry
  rw [if_pos h1, if_neg h2, if_neg h3, if_neg h4]

theorem processEntry_shape (self : Option String) (st : FS) (e : Entry) :
    ((processEntry self st e).1 = st ∧
      ((processEntry self st e).2 = [] ∨
        (processEntry self st e).2 =
          [Event.collision e.name (get_target_folder (path_extension e.name))] ∨
        (processEntry self st e).2 =
          [Event.moveError e.name (get_target_folder (path_extension e.name))]) ∧
      (e.kind = EntryKind.file → skipCond self st e)) ∨
    (e.kind = EntryKind.file ∧ self ≠ some e.name ∧
      path_extension e.name ≠ "" ∧
      (get_target_folder (path_extension e.name), e.name) ∉ st.sub ∧
      Entry.mk (get_target_folder (path_extension e.name)) EntryKind.dir ∈
        st.rootEntries ∧
      (processEntry self st e).1 =
        ⟨st.rootEntries.filter (fun x => x.name ≠ e.name),
          st.sub ++ [(get_target_folder (path_extension e.name), e.name)]⟩ ∧
      (processEntry self st e).2 =
        [Event.moved e.name (get_target_folder (path_extension e.name))]) := by
  by_cases h1 : e.kind = EntryKind.file ∧ self ≠ some e.name
  · by_cases h2 : path_extension e.name = ""
    · left
      rw [processEntry_skip_ext h1 h2]
      exact ⟨rfl, Or.inl rfl, fun _ => Or.inr (Or.inl h2)⟩
    · by_cases h3 : (get_target_folder (path_extension e.name), e.name) ∈ st.sub
      · left
        rw [processEntry_collision h1 h2 h3]
        exact ⟨rfl, Or.inr (Or.inl rfl), fun _ => Or.inr (Or.inr (Or.inl h3))⟩
      · by_cases h4 : Entry.mk (get_target_folder (path_extension e.name))
            EntryKind.dir ∈ st.rootEntries
        · right
          rw [processEntry_moved h1 h2 h3 h4]
          exact ⟨h1.1, h1.2, h2, h3, h4, rfl, rfl⟩
        · left
          rw [processEntry_error h1 h2 h3 h4]
          exact ⟨rfl, Or.inr (Or.inr rfl), fun _ => Or.inr (Or.inr (Or.inr h4))⟩
  · left
    rw [processEntry_skip_kind h1]
    refine ⟨rfl, Or.inl rfl, ?_⟩
    intro hf
    left
    by_contra hs
    exact h1 ⟨hf, hs⟩

theorem processEntry_fname (self : Option String) (st : FS) (e : Entry) :
    ∀ v ∈ (processEntry self st e).2, v.fname = e.name := by
  rcases processEntry_shape self st e with ⟨_, hev, _⟩ | ⟨_, _, _, _, _, _, hev⟩
  · rcases hev with hev | hev | hev <;> rw [hev]
    · intro v hv
      cases hv
    · intro v hv
      rcases List.mem_singleton.mp hv with rfl
      rfl
    · intro v hv
      rcases List.mem_singleton.mp hv with rfl
      rfl
  · rw [hev]
    intro v hv
    rcases List.mem_singleton.mp hv with rfl
    rfl

theorem processEntry_noext (self : Option String) (st : FS) (e : Entry)
    (h : path_extension e.name = "") : processEntry self st e = (st, []) := by
  by_cases h1 : e.kind = EntryKind.file ∧ self ≠ some e.name
  · exact processEntry_skip_ext h1 h
  · exact processEntry_skip_kind h1

theorem name_inj {l : List Entry}
    (hnd : (l.map Entry.name).Nodup) :
    ∀ x ∈ l, ∀ y ∈ l, x.name = y.name → x = y := by
  induction l with
  | nil =>
      intro x hx
      cases hx
  | cons a t ih =>
      rw [List.map_cons, List.nodup_cons] at hnd
      intro x hx y hy hxy
      rcases List.mem_cons.mp hx with hxa | hx
      · rcases List.mem_cons.mp hy with hya | hy
        · rw [hxa, hya]
        · exfalso
          refine hnd.1 ?_
          rw [hxa] at hxy
          rw [hxy]
          exact List.mem_map_of_mem Entry.name hy
      · rcases List.mem_cons.mp hy with hya | hy
        · exfalso
          refine hnd.1 ?_
          rw [hya] at hxy
          rw [← hxy]
          exact List.mem_map_of_mem Entry.name hx
        · exact ih hnd.2 x hx y hy hxy

theorem organize_loop_nil (self : Option String) (st : FS) :
    organize_loop self [] st = (st, []) := rfl

theorem organize_loop_cons (self : Option String) (e : Entry) (r : List Entry)
    (st : FS) :
    organize_loop self (e :: r) st =
      ((organize_loop self r (processEntry self st e).1).1,
       (processEntry self st e).2 ++
         (organize_loop self r (processEntry self st e).1).2) := rfl

theorem processEntry_sub_mono (self : Option String) (st : FS) (e : Entry) :
    ∀ x ∈ st.sub, x ∈ (processEntry self st e).1.sub := by
  intro x hx
  rcases processEntry_shape self st e with ⟨h, _, _⟩ | ⟨_, _, _, _, _, h, _⟩ <;>
    rw [h]
  · exact hx
  · exact List.mem_append_left _ hx

theorem processEntry_root_sublist (self : Option String) (st : FS) (e : Entry) :
    List.Sublist (processEntry self st e).1.rootEntries st.rootEntries := by
  rcases processEntry_shape self st e with ⟨h, _, _⟩ | ⟨_, _, _, _, _, h, _⟩
  · rw [h]
  · rw [h]
    exact List.filter_sublist _

theorem loop_sub_mono (self : Option String) :
    ∀ (l : List Entry) (st : FS) (x : String × String), x ∈ st.sub →
      x ∈ (organize_loop self l st).1.sub := by
  intro l
  induction l with
  | nil =>
      intro st x hx
      exact hx
  | cons e r ih =>
      intro st x hx
      rw [organize_loop_cons]
      exact ih _ x (processEntry_sub_mono self st e x hx)

theorem loop_root_sublist (self : Option String) :
    ∀ (l : List Entry) (st : FS),
      List.Sublist (organize_loop self l st).1.rootEntries st.rootEntries := by
  intro l
  induction l with
  | nil =>
      intro st
      exact List.Sublist.refl _
  | cons e r ih =>
      intro st
      rw [organize_loop_cons]
      exact (ih (processEntry self st e).1).trans
        (processEntry_root_sublist self st e)

theorem processEntry_keep (self : Option String) (st : FS) (e : Entry)
    {f : Entry} (hf : f ∈ st.rootEntries) (hne : f.name ≠ e.name) :
    f ∈ (processEntry self st e).1.rootEntries := by
  rcases processEntry_shape self st e with ⟨h, _, _⟩ | ⟨_, _, _, _, _, h, _⟩ <;>
    rw [h]
  · exact hf
  · exact List.mem_filter.mpr ⟨hf, by simpa using hne⟩

theorem loop_keep_unnamed (self : Option String) :
    ∀ (l : List Entry) (st : FS) (f : Entry), f ∈ st.rootEntries →
      (∀ x ∈ l, x.name ≠ f.name) →
      f ∈ (organize_loop self l st).1.rootEntries := by
  intro l
  induction l with
  | nil =>
      intro st f hf _
      exact hf
  | cons e r ih =>
      intro st f hf hn
      rw [organize_loop_cons]
      refine ih _ f ?_ (fun x hx => hn x (List.mem_cons_of_mem _ hx))
      exact processEntry_keep self st e hf
        (Ne.symm (hn e (List.mem_cons_self _ _)))

theorem processEntry_keep_noext (self : Option String) (st : FS) (e : Entry)
    {f : Entry} (hf : f ∈ st.rootEntries)
    (hext : path_extension f.name = "") :
    f ∈ (processEntry self st e).1.rootEntries := by
  rcases processEntry_shape self st e with ⟨h, _, _⟩ | ⟨_, _, hx, _, _, h, _⟩ <;>
    rw [h]
  · exact hf
  · refine List.mem_filter.mpr ⟨hf, ?_⟩
    simp only [decide_eq_true_eq]
    intro heq
    rw [heq] at hext
    exact hx hext

theorem loop_keep_noext (self : Option String) :
    ∀ (l : List Entry) (st : FS) (f : Entry), f ∈ st.rootEntries →
      path_extension f.name = "" →
      f ∈ (organize_loop self l st).1.rootEntries := by
  intro l
  induction l with
  | nil =>
      intro st f hf _
      exact hf
  | cons e r ih =>
      intro st f hf hext
      rw [organize_loop_cons]
      exact ih _ f (processEntry_keep_noext self st e hf hext) hext

theorem loop_keep_named_noext (self : Option String) (l : List Entry) (st : FS)
    (n : String) (hex : ∃ x ∈ st.rootEntries, x.name = n)
    (hext : path_extension n = "") :
    ∃ x ∈ (organize_loop self l st).1.rootEntries, x.name = n := by
  rcases hex with ⟨x, hx, hxn⟩
  refine ⟨x, loop_keep_noext self l st x hx ?_, hxn⟩
  rw [hxn]
  exact hext

theorem processEntry_sub_new (self : Option String) (st : FS) (e : Entry) :
    ∀ x ∈ (processEntry self st e).1.sub, x ∈ st.sub ∨ x.2 = e.name := by
  rcases processEntry_shape self st e with ⟨h, _, _⟩ | ⟨_, _, _, _, _, h, _⟩ <;>
    rw [h]
  · intro x hx
    exact Or.inl hx
  · intro x hx
    rcases List.mem_append.mp hx with hx | hx
    · exact Or.inl hx
    · rcases List.mem_singleton.mp hx with rfl
      exact Or.inr rfl

theorem loop_sub_new (self : Option String) :
    ∀ (l : List Entry) (st : FS) (x : String × String),
      x ∈ (organize_loop self l st).1.sub →
      x ∈ st.sub ∨ ∃ y ∈ l, x.2 = y.name := by
  intro l
  induction l with
  | nil =>
      intro st x hx
      exact Or.inl hx
  | cons e r ih =>
      intro st x hx
      rw [organize_loop_cons] at hx
      rcases ih _ x hx with hx | ⟨y, hy, hxy⟩
      · rcases processEntry_sub_new self st e x hx with hx | hx
        · exact Or.inl hx
        · exact Or.inr ⟨e, List.mem_cons_self _ _, hx⟩
      · exact Or.inr ⟨y, List.mem_cons_of_mem _ hy, hxy⟩

theorem loop_fname (self : Option String) :
    ∀ (l : List Entry) (st : FS) (v : Event),
      v ∈ (organize_loop self l st).2 → ∃ x ∈ l, v.fname = x.name := by
  intro l
  induction l with
  | nil =>
      intro st v hv
      cases hv
  | cons e r ih =>
      intro st v hv
      rw [organize_loop_cons] at hv
      rcases List.mem_append.mp hv with hv | hv
      · exact ⟨e, List.mem_cons_self _ _, processEntry_fname self st e v hv⟩
      · rcases ih _ v hv with ⟨x, hx, hvx⟩
        exact ⟨x, List.mem_cons_of_mem _ hx, hvx⟩

theorem loop_no_events_unnamed (self : Option String) (l : List Entry) (st : FS)
    (n : String) (hn : ∀ x ∈ l, x.name ≠ n) :
    ∀ v ∈ (organize_loop self l st).2, v.fname ≠ n := by
  intro v hv
  rcases loop_fname self l st v hv with ⟨x, hx, hvx⟩
  rw [hvx]
  exact hn x hx

theorem loop_no_events_noext (self : Option String) :
    ∀ (l : List Entry) (st : FS) (n : String), path_extension n = "" →
      ∀ v ∈ (organize_loop self l st).2, v.fname ≠ n := by
  intro l
  induction l with
  | nil =>
      intro st n _ v hv
      cases hv
  | cons e r ih =>
      intro st n hext v hv
      rw [organize_loop_cons] at hv
      rcases List.mem_append.mp hv with hv | hv
      · by_cases he : e.name = n
        · exfalso
          have hpe : processEntry self st e = (st, []) := by
            refine processEntry_noext self st e ?_
            rw [he]
            exact hext
          rw [hpe] at hv
          cases hv
        · rw [processEntry_fname self st e v hv]
          exact he
      · exact ih _ n hext v hv

theorem loop_keep_dir (self : Option String) :
    ∀ (l : List Entry) (st : FS) (c : String),
      (st.rootEntries.map Entry.name).Nodup →
      List.Sublist l st.rootEntries →
      Entry.mk c EntryKind.dir ∈ st.rootEntries →
      Entry.mk c EntryKind.dir ∈ (organize_loop self l st).1.rootEntries := by
  intro l
  induction l with
  | nil =>
      intro st c _ _ hd
      exact hd
  | cons e r ih =>
      intro st c hnd hsub hd
      rw [organize_loop_cons]
      rcases processEntry_shape self st e with ⟨hst, _, _⟩ |
        ⟨hkind, _, _, _, _, hst, _⟩
      · refine ih _ c ?_ ?_ ?_ <;> rw [hst]
        · exact hnd
        · exact List.sublist_of_cons_sublist hsub
        · exact hd
      · have hein : e ∈ st.rootEntries :=
          hsub.subset (List.mem_cons_self _ _)
        have hne : c ≠ e.name := by
          intro heq
          have heqe : Entry.mk c EntryKind.dir = e :=
            name_inj hnd _ hd _ hein heq
          rw [← heqe] at hkind
          cases hkind
        have hnames : ∀ x ∈ r, x.name ≠ e.name := by
          have hnd2 : ((e :: r).map Entry.name).Nodup :=
            List.Nodup.sublist (hsub.map Entry.name) hnd
          rw [List.map_cons, List.nodup_cons] at hnd2
          intro x hx heq
          exact hnd2.1 (heq ▸ List.mem_map_of_mem Entry.name hx)
        refine ih _ c ?_ ?_ ?_ <;> rw [hst]
        · exact List.Nodup.sublist ((List.filter_sublist _).map Entry.name) hnd
        · have hreq : r.filter (fun x => x.name ≠ e.name) = r :=
            List.filter_eq_self.mpr (fun x hx => by simpa using hnames x hx)
          rw [← hreq]
          exact List.Sublist.filter _ (List.sublist_of_cons_sublist hsub)
        · exact List.mem_filter.mpr ⟨hd, by simpa using hne⟩

theorem skipCond_stable (self : Option String) (l : List Entry) (st : FS)
    (e : Entry) (h : skipCond self st e) :
    skipCond self (organize_loop self l st).1 e := by
  rcases h with h | h | h | h
  · exact Or.inl h
  · exact Or.inr (Or.inl h)
  · exact Or.inr (Or.inr (Or.inl (loop_sub_mono self l st _ h)))
  · refine Or.inr (Or.inr (Or.inr ?_))
    intro hmem
    exact h ((loop_root_sublist self l st).subset hmem)

theorem loop_append (self : Option String) :
    ∀ (l₁ l₂ : List Entry) (st : FS),
      organize_loop self (l₁ ++ l₂) st =
        ((organize_loop self l₂ (organize_loop self l₁ st).1).1,
         (organize_loop self l₁ st).2 ++
           (organize_loop self l₂ (organize_loop self l₁ st).1).2) := by
  intro l₁
  induction l₁ with
  | nil =>
      intro l₂ st
      rw [List.nil_append, organize_loop_nil]
      rw [List.nil_append]
  | cons e r ih =>
      intro l₂ st
      rw [List.cons_append, organize_loop_cons, ih, organize_loop_cons,
        List.append_assoc]

theorem loop_remaining_skip (self : Option String) :
    ∀ (l : List Entry) (st : FS),
      (st.rootEntries.map Entry.name).Nodup →
      List.Sublist l st.rootEntries →
      ∀ e, e ∈ (organize_loop self l st).1.rootEntries → e ∈ l →
        e.kind = EntryKind.file →
        skipCond self (organize_loop self l st).1 e := by
  intro l
  induction l with
  | nil =>
      intro st _ _ e _ hel
      cases hel
  | cons h r ih =>
      intro st hnd hsub e hefin hel hkind
      rw [organize_loop_cons] at hefin ⊢
      rcases processEntry_shape self st h with ⟨hst, _, hsk⟩ |
        ⟨hk, hs, hx, hns, hdm, hst, _⟩
      · rcases List.mem_cons.mp hel with rfl | hel
        · have hsc : skipCond self st e := hsk hkind
          have hres := skipCond_stable self r st e hsc
          rw [← hst] at hres
          exact hres
        · refine ih (processEntry self st h).1 ?_ ?_ e hefin hel hkind <;>
            rw [hst]
          · exact hnd
          · exact List.sublist_of_cons_sublist hsub
      · rcases List.mem_cons.mp hel with rfl | hel
        · exfalso
          have h1 : e ∈ (processEntry self st e).1.rootEntries :=
            (loop_root_sublist self r _).subset hefin
          rw [hst] at h1
          rcases List.mem_filter.mp h1 with ⟨_, hdec⟩
          simp at hdec
        · have hnames : ∀ x ∈ r, x.name ≠ h.name := by
            have hnd2 : ((h :: r).map Entry.name).Nodup :=
              List.Nodup.sublist (hsub.map Entry.name) hnd
            rw [List.map_cons, List.nodup_cons] at hnd2
            intro x hxm heq
            exact hnd2.1 (heq ▸ List.mem_map_of_mem Entry.name hxm)
          refine ih (processEntry self st h).1 ?_ ?_ e hefin hel hkind <;>
            rw [hst]
          · exact List.Nodup.sublist ((List.filter_sublist _).map Entry.name) hnd
          · have hreq : r.filter (fun x => x.name ≠ h.name) = r :=
              List.filter_eq_self.mpr (fun x hxm => by simpa using hnames x hxm)
            rw [← hreq]
            exact List.Sublist.filter _ (List.sublist_of_cons_sublist hsub)

theorem loop_noop (self : Option String) :
    ∀ (l : List Entry) (st : FS),
      (∀ e ∈ l, e.kind = EntryKind.file → skipCond self st e) →
      (organize_loop self l st).1 = st ∧
      ∀ v ∈ (organize_loop self l st).2, v.isMoved = false := by
  intro l
  induction l with
  | nil =>
      intro st _
      refine ⟨rfl, ?_⟩
      intro v hv
      cases hv
  | cons e r ih =>
      intro st hall
      rw [organize_loop_cons]
      rcases processEntry_shape self st e with ⟨hst, hev, _⟩ |
        ⟨hk, hs, hx, hns, hdm, _, _⟩
      · have hr := ih (processEntry self st e).1 (by
          rw [hst]
          exact fun x hxm hkx => hall x (List.mem_cons_of_mem _ hxm) hkx)
        refine ⟨?_, ?_⟩
        · rw [hr.1, hst]
        · intro v hv
          rcases List.mem_append.mp hv with hv | hv
          · rcases hev with hev | hev | hev <;> rw [hev] at hv
            · cases hv
            · rcases List.mem_singleton.mp hv with rfl
              rfl
            · rcases List.mem_singleton.mp hv with rfl
              rfl
          · exact hr.2 v hv
      · exfalso
        rcases hall e (List.mem_cons_self _ _) hk with hc | hc | hc | hc
        · exact hs hc
        · exact hx hc
        · exact hns hc
        · exact hc hdm

theorem ensure_go_nodup (ce : String → Option String) :
    ∀ (l : List String) (st : FS),
      (st.rootEntries.map Entry.name).Nodup →
      ((ensure_go ce l st).1.rootEntries.map Entry.name).Nodup := by
  intro l
  induction l with
  | nil =>
      intro st hnd
      exact hnd
  | cons c r ih =>
      intro st hnd
      by_cases h : st.rootEntries.any (fun x => x.name = c) = true
      · rw [ensure_go_cons_exists h]
        exact ih st hnd
      · rw [Bool.not_eq_true] at h
        cases hc : ce c with
        | none =>
            rw [ensure_go_cons_create h hc]
            refine ih _ ?_
            show ((st.rootEntries ++ [Entry.mk c EntryKind.dir]).map Entry.name).Nodup
            rw [List.map_append]
            rw [List.nodup_append]
            refine ⟨hnd, List.nodup_singleton _, ?_⟩
            intro a ha hac
            have hac2 : a = c := by simpa using hac
            rcases List.mem_map.mp ha with ⟨x, hx, hxa⟩
            have hany : st.rootEntries.any (fun y => y.name = c) = true := by
              refine List.any_eq_true.mpr ⟨x, hx, ?_⟩
              simp only [decide_eq_true_eq]
              rw [hxa, hac2]
            rw [h] at hany
            cases hany
        | some m =>
            rw [ensure_go_cons_fail h hc]
            exact hnd

theorem cat_noext : ∀ c ∈ catNames, path_extension c = "" := by
  decide

theorem ext_map_vals : ∀ kv ∈ g_extension_to_folder_map, kv.2 ∈ catNames := by
  decide

theorem gtf_mem_catNames (ext : String) : get_target_folder ext ∈ catNames := by
  unfold get_target_folder
  cases hf : g_extension_to_folder_map.find? (fun kv => kv.1 = str_tolower ext) with
  | none => decide
  | some kv => exact ext_map_vals kv (List.mem_of_find?_eq_some hf)

theorem organize_ok_split (ce : String → Option String) (self : Option String)
    (s : FS) (hok : (organize_files ce self s).2 = none) :
    ∃ sE, ensure_go ce catNames s = (sE, none) ∧
      organize_files ce self s = (organize_loop self sE.rootEntries sE, none) := by
  rcases hpair : ensure_folders ce s with ⟨sE, err⟩
  cases err with
  | some m =>
      rw [organize_files_of_fail hpair] at hok
      cases hok
  | none =>
      exact ⟨sE, hpair, organize_files_of_ok hpair⟩

theorem organize_keep_noext (ce : String → Option String) (self : Option String)
    (s : FS) (n : String)
    (hmem : Entry.mk n EntryKind.file ∈ s.rootEntries)
    (hext : path_extension n = "") :
    Entry.mk n EntryKind.file ∈ (organize_files ce self s).1.1.rootEntries ∧
    ∀ v ∈ (organize_files ce self s).1.2, v.fname ≠ n := by
  rcases hpair : ensure_folders ce s with ⟨sE, err⟩
  have hpair' : ensure_go ce catNames s = (sE, err) := hpair
  have hmemE : Entry.mk n EntryKind.file ∈ sE.rootEntries := by
    have h0 := ensure_go_mono ce catNames s _ hmem
    rw [hpair'] at h0
    exact h0
  cases err with
  | some m =>
      rw [organize_files_of_fail hpair]
      refine ⟨hmemE, ?_⟩
      intro v hv
      cases hv
  | none =>
      rw [organize_files_of_ok hpair]
      constructor
      · exact loop_keep_noext self sE.rootEntries sE _ hmemE hext
      · exact loop_no_events_noext self sE.rootEntries sE n hext

/-- C7: every regular file at root whose name yields no extension is
left in place by `organize_files`: it stays among the root entries, it
is not moved, and no event (error or notice) concerns it. -/
theorem no_extension_untouched (ce : String → Option String)
    (self : Option String) (s : FS) (n : String)
    (hmem : Entry.mk n EntryKind.file ∈ s.rootEntries)
    (hext : path_extension n = "") :
    Entry.mk n EntryKind.file ∈ (organize_files ce self s).1.1.rootEntries ∧
    ∀ v ∈ (organize_files ce self s).1.2, v.fname ≠ n :=
  organize_keep_noext ce self s n hmem hext

/-- Witness for C7: a root holding only `README` keeps it in place. -/
theorem no_extension_untouched_witness :
    (Entry.mk "README" EntryKind.file ∈
        (FS.mk [⟨"README", EntryKind.file⟩] []).rootEntries ∧
      path_extension "README" = "") ∧
    Entry.mk "README" EntryKind.file ∈
      (organize_files (fun _ => none) none
        (FS.mk [⟨"README", EntryKind.file⟩] [])).1.1.rootEntries ∧
    ∀ v ∈ (organize_files (fun _ => none) none
        (FS.mk [⟨"README", EntryKind.file⟩] [])).1.2, v.fname ≠ "README" :=
  ⟨⟨by decide, by decide⟩,
   no_extension_untouched (fun _ => none) none _ "README" (by decide) (by decide)⟩

theorem last_dot_none :
    ∀ l : List Char, (∀ c ∈ l, c ≠ '.') → last_dot_idx l = none := by
  intro l
  induction l with
  | nil =>
      intro _
      rfl
  | cons c t ih =>
      intro h
      show (match last_dot_idx t with
        | some i => some (i + 1)
        | none => if c = '.' then some 0 else none) = none
      rw [ih (fun x hx => h x (List.mem_cons_of_mem _ hx))]
      rw [if_neg (h c (List.mem_cons_self _ _))]

theorem dot_leading_no_ext (n : String)
    (hh : n.data.head? = some '.')
    (ht : ∀ c ∈ n.data.tail, c ≠ '.') :
    path_extension n = "" := by
  by_cases hsp : n = "." ∨ n = ".."
  · unfold path_extension
    rw [if_pos hsp]
  · unfold path_extension
    rw [if_neg hsp]
    cases hd : n.data with
    | nil =>
        rw [hd] at hh
        cases hh
    | cons c t =>
        rw [hd] at hh ht
        have hc : c = '.' := by
          simp only [List.head?_cons, Option.some_inj] at hh
          exact hh
        subst hc
        have htail : last_dot_idx t = none := by
          refine last_dot_none t ?_
          intro x hx
          exact ht x hx
        have h2 : last_dot_idx ('.' :: t) = some 0 := by
          show (match last_dot_idx t with
            | some i => some (i + 1)
            | none => if '.' = '.' then some 0 else none) = some 0
          rw [htail, if_pos rfl]
        rw [h2]

/-- C10: a regular file whose name begins with a dot and contains no
other dot (such as `.bashrc`) yields an empty extracted extension, so it
falls under the no-extension skip: it stays at root, is never moved, and
no event concerns it. -/
theorem dotfile_untouched (ce : String → Option String) (self : Option String)
    (s : FS) (n : String)
    (hh : n.data.head? = some '.')
    (ht : ∀ c ∈ n.data.tail, c ≠ '.')
    (hmem : Entry.mk n EntryKind.file ∈ s.rootEntries) :
    path_extension n = "" ∧
    Entry.mk n EntryKind.file ∈ (organize_files ce self s).1.1.rootEntries ∧
    ∀ v ∈ (organize_files ce self s).1.2, v.fname ≠ n := by
  have hext := dot_leading_no_ext n hh ht
  exact ⟨hext, organize_keep_noext ce self s n hmem hext⟩

/-- Witness for C10: a root holding `.bashrc` keeps it in place. -/
theorem dotfile_untouched_witness :
    ((".bashrc" : String).data.head? = some '.' ∧
      (∀ c ∈ (".bashrc" : String).data.tail, c ≠ '.')) ∧
    path_extension ".bashrc" = "" ∧
    Entry.mk ".bashrc" EntryKind.file ∈
      (organize_files (fun _ => none) none
        (FS.mk [⟨".bashrc", EntryKind.file⟩] [])).1.1.rootEntries ∧
    ∀ v ∈ (organize_files (fun _ => none) none
        (FS.mk [⟨".bashrc", EntryKind.file⟩] [])).1.2, v.fname ≠ ".bashrc" :=
  ⟨⟨by decide, by decide⟩,
   dotfile_untouched (fun _ => none) none _ ".bashrc"
     (by decide) (by decide) (by decide)⟩

/-- C2: a regular file at root whose classified target `root/c/f`
already exists is skipped with exactly one collision notice: the file
stays at root untouched, the occupying entry at `root/c/f` keeps
existing (no overwrite), and no move and no error event concerns the
file.  (Root entry names are distinct as in a real directory, the file
is not the running program, it has an extension, and the run's folder
provisioning succeeded.) -/
theorem organize_collision_skips (ce : String → Option String)
    (self : Option String) (s : FS) (f : String)
    (hnd : (s.rootEntries.map Entry.name).Nodup)
    (hmem : Entry.mk f EntryKind.file ∈ s.rootEntries)
    (hself : self ≠ some f)
    (hext : path_extension f ≠ "")
    (hsub : (get_target_folder (path_extension f), f) ∈ s.sub)
    (hok : (organize_files ce self s).2 = none) :
    Entry.mk f EntryKind.file ∈ (organize_files ce self s).1.1.rootEntries ∧
    (get_target_folder (path_extension f), f) ∈
      (organize_files ce self s).1.1.sub ∧
    (organize_files ce self s).1.2.filter (fun v => v.fname = f) =
      [Event.collision f (get_target_folder (path_extension f))] := by
  rcases organize_ok_split ce self s hok with ⟨sE, hens, horg⟩
  have hndE : (sE.rootEntries.map Entry.name).Nodup := by
    have h0 := ensure_go_nodup ce catNames s hnd
    rw [hens] at h0
    exact h0
  have hmemE : Entry.mk f EntryKind.file ∈ sE.rootEntries := by
    have h0 := ensure_go_mono ce catNames s _ hmem
    rw [hens] at h0
    exact h0
  have hsubE : (get_target_folder (path_extension f), f) ∈ sE.sub := by
    have h0 := ensure_go_sub ce catNames s
    rw [hens] at h0
    rw [h0]
    exact hsub
  rcases List.append_of_mem hmemE with ⟨pre, post, hsplit⟩
  have hnd2 := hndE
  rw [hsplit, List.map_append, List.map_cons, List.nodup_middle,
    List.nodup_cons] at hnd2
  have hpre : ∀ x ∈ pre, x.name ≠ f := by
    intro x hx heq
    refine hnd2.1 (List.mem_append_left _ ?_)
    show f ∈ pre.map Entry.name
    rw [← heq]
    exact List.mem_map_of_mem Entry.name hx
  have hpost : ∀ x ∈ post, x.name ≠ f := by
    intro x hx heq
    refine hnd2.1 (List.mem_append_right _ ?_)
    show f ∈ post.map Entry.name
    rw [← heq]
    exact List.mem_map_of_mem Entry.name hx
  have hstep : processEntry self (organize_loop self pre sE).1
      (Entry.mk f EntryKind.file) =
      ((organize_loop self pre sE).1,
       [Event.collision f (get_target_folder (path_extension f))]) := by
    refine processEntry_collision ⟨rfl, hself⟩ hext ?_
    exact loop_sub_mono self pre sE _ hsubE
  have hFin1 : (organize_files ce self s).1.1 =
      (organize_loop self post (organize_loop self pre sE).1).1 := by
    rw [horg, hsplit, loop_append self pre (Entry.mk f EntryKind.file :: post) sE,
      organize_loop_cons, hstep]
  have hFin2 : (organize_files ce self s).1.2 =
      (organize_loop self pre sE).2 ++
        ([Event.collision f (get_target_folder (path_extension f))] ++
         (organize_loop self post (organize_loop self pre sE).1).2) := by
    rw [horg, hsplit, loop_append self pre (Entry.mk f EntryKind.file :: post) sE,
      organize_loop_cons, hstep]
  refine ⟨?_, ?_, ?_⟩
  · rw [hFin1]
    refine loop_keep_unnamed self post (organize_loop self pre sE).1 _ ?_ ?_
    · exact loop_keep_unnamed self pre sE _ hmemE (fun x hx => hpre x hx)
    · exact fun x hx => hpost x hx
  · rw [hFin1]
    exact loop_sub_mono self post _ _ (loop_sub_mono self pre sE _ hsubE)
  · rw [hFin2, List.filter_append, List.filter_append]
    have e1 : (organize_loop self pre sE).2.filter (fun v => v.fname = f) = [] := by
      refine List.filter_eq_nil_iff.mpr ?_
      intro v hv
      simpa using loop_no_events_unnamed self pre sE f hpre v hv
    have e2 : (organize_loop self post
        (organize_loop self pre sE).1).2.filter (fun v => v.fname = f) = [] := by
      refine List.filter_eq_nil_iff.mpr ?_
      intro v hv
      simpa using loop_no_events_unnamed self post _ f hpost v hv
    have e3 : ([Event.collision f (get_target_folder (path_extension f))]).filter
        (fun v => v.fname = f) =
        [Event.collision f (get_target_folder (path_extension f))] := by
      simp [Event.fname]
    rw [e1, e2, e3]
    simp

/-- Witness for C2: root `a.txt` collides with an existing
`Documents/a.txt`; the file stays, the occupant stays, one notice. -/
theorem organize_collision_skips_witness :
    (((FS.mk [⟨"a.txt", EntryKind.file⟩]
        [("Documents", "a.txt")]).rootEntries.map Entry.name).Nodup ∧
      path_extension "a.txt" ≠ "" ∧
      (get_target_folder (path_extension "a.txt"), "a.txt") ∈
        (FS.mk [⟨"a.txt", EntryKind.file⟩] [("Documents", "a.txt")]).sub) ∧
    Entry.mk "a.txt" EntryKind.file ∈
      (organize_files (fun _ => none) none
        (FS.mk [⟨"a.txt", EntryKind.file⟩]
          [("Documents", "a.txt")])).1.1.rootEntries ∧
    (get_target_folder (path_extension "a.txt"), "a.txt") ∈
      (organize_files (fun _ => none) none
        (FS.mk [⟨"a.txt", EntryKind.file⟩] [("Documents", "a.txt")])).1.1.sub ∧
    (organize_files (fun _ => none) none
        (FS.mk [⟨"a.txt", EntryKind.file⟩]
          [("Documents", "a.txt")])).1.2.filter (fun v => v.fname = "a.txt") =
      [Event.collision "a.txt" (get_target_folder (path_extension "a.txt"))] :=
  ⟨⟨by decide, by decide, by decide⟩,
   organize_collision_skips (fun _ => none) none _ "a.txt" (by decide)
     (by decide) (by decide) (by decide) (by decide) (by decide)⟩

/-- C1 (amended): for a regular file `f` at root — not the running
program — with a nonempty extension and target category
`c = get_target_folder (extension)`: after a completed run whose folder
provisioning succeeded, if `root/c/f` did not exist before the run and
every preexisting root entry named `c` is a directory, then `f` now
resides at `root/c/f` (with a move event reported) and no entry named
`f` remains at root.  The original claim omits the directory condition:
when a non-directory entry occupies the category name, the rename
throws, the error is logged per-file, and the file stays at root. -/
theorem organize_moves_file_amended (ce : String → Option String)
    (self : Option String) (s : FS) (f : String)
    (hnd : (s.rootEntries.map Entry.name).Nodup)
    (hmem : Entry.mk f EntryKind.file ∈ s.rootEntries)
    (hself : self ≠ some f)
    (hext : path_extension f ≠ "")
    (hnsub : (get_target_folder (path_extension f), f) ∉ s.sub)
    (hdir : ∀ x ∈ s.rootEntries,
      x.name = get_target_folder (path_extension f) → x.kind = EntryKind.dir)
    (hok : (organize_files ce self s).2 = none) :
    (get_target_folder (path_extension f), f) ∈
      (organize_files ce self s).1.1.sub ∧
    (∀ x ∈ (organize_files ce self s).1.1.rootEntries, x.name ≠ f) ∧
    (organize_files ce self s).1.2.filter (fun v => v.fname = f) =
      [Event.moved f (get_target_folder (path_extension f))] := by
  rcases organize_ok_split ce self s hok with ⟨sE, hens, horg⟩
  have hndE : (sE.rootEntries.map Entry.name).Nodup := by
    have h0 := ensure_go_nodup ce catNames s hnd
    rw [hens] at h0
    exact h0
  have hmemE : Entry.mk f EntryKind.file ∈ sE.rootEntries := by
    have h0 := ensure_go_mono ce catNames s _ hmem
    rw [hens] at h0
    exact h0
  have hnsubE : (get_target_folder (path_extension f), f) ∉ sE.sub := by
    have h0 := ensure_go_sub ce catNames s
    rw [hens] at h0
    rw [h0]
    exact hnsub
  have hdirE : Entry.mk (get_target_folder (path_extension f)) EntryKind.dir ∈
      sE.rootEntries := by
    refine ensure_go_dir_mem ce catNames s sE hens _ (gtf_mem_catNames _) hdir
  rcases List.append_of_mem hmemE with ⟨pre, post, hsplit⟩
  have hnd2 := hndE
  rw [hsplit, List.map_append, List.map_cons, List.nodup_middle,
    List.nodup_cons] at hnd2
  have hpre : ∀ x ∈ pre, x.name ≠ f := by
    intro x hx heq
    refine hnd2.1 (List.mem_append_left _ ?_)
    show f ∈ pre.map Entry.name
    rw [← heq]
    exact List.mem_map_of_mem Entry.name hx
  have hpost : ∀ x ∈ post, x.name ≠ f := by
    intro x hx heq
    refine hnd2.1 (List.mem_append_right _ ?_)
    show f ∈ post.map Entry.name
    rw [← heq]
    exact List.mem_map_of_mem Entry.name hx
  have hpresub : List.Sublist pre sE.rootEntries := by
    rw [hsplit]
    exact List.sublist_append_left _ _
  have hdir1 : Entry.mk (get_target_folder (path_extension f)) EntryKind.dir ∈
      (organize_loop self pre sE).1.rootEntries :=
    loop_keep_dir self pre sE _ hndE hpresub hdirE
  have hns1 : (get_target_folder (path_extension f), f) ∉
      (organize_loop self pre sE).1.sub := by
    intro hmem1
    rcases loop_sub_new self pre sE _ hmem1 with h | ⟨y, hy, hxy⟩
    · exact hnsubE h
    · exact hpre y hy hxy.symm
  have hstep : processEntry self (organize_loop self pre sE).1
      (Entry.mk f EntryKind.file) =
      (⟨(organize_loop self pre sE).1.rootEntries.filter (fun x => x.name ≠ f),
        (organize_loop self pre sE).1.sub ++
          [(get_target_folder (path_extension f), f)]⟩,
       [Event.moved f (get_target_folder (path_extension f))]) :=
    processEntry_moved ⟨rfl, hself⟩ hext hns1 hdir1
  have hFin1 : (organize_files ce self s).1.1 =
      (organize_loop self post
        (⟨(organize_loop self pre sE).1.rootEntries.filter
            (fun x => x.name ≠ f),
          (organize_loop self pre sE).1.sub ++
            [(get_target_folder (path_extension f), f)]⟩ : FS)).1 := by
    rw [horg, hsplit, loop_append self pre (Entry.mk f EntryKind.file :: post) sE,
      organize_loop_cons, hstep]
  have hFin2 : (organize_files ce self s).1.2 =
      (organize_loop self pre sE).2 ++
        ([Event.moved f (get_target_folder (path_extension f))] ++
         (organize_loop self post
           (⟨(organize_loop self pre sE).1.rootEntries.filter
               (fun x => x.name ≠ f),
             (organize_loop self pre sE).1.sub ++
               [(get_target_folder (path_extension f), f)]⟩ : FS)).2) := by
    rw [horg, hsplit, loop_append self pre (Entry.mk f EntryKind.file :: post) sE,
      organize_loop_cons, hstep]
  refine ⟨?_, ?_, ?_⟩
  · rw [hFin1]
    refine loop_sub_mono self post _ _ ?_
    exact List.mem_append_right _ (List.mem_singleton.mpr rfl)
  · rw [hFin1]
    intro x hx
    have hx2 := (loop_root_sublist self post _).subset hx
    rcases List.mem_filter.mp hx2 with ⟨_, hdec⟩
    simpa using hdec
  · rw [hFin2, List.filter_append, List.filter_append]
    have e1 : (organize_loop self pre sE).2.filter (fun v => v.fname = f) = [] := by
      refine List.filter_eq_nil_iff.mpr ?_
      intro v hv
      simpa using loop_no_events_unnamed self pre sE f hpre v hv
    have e2 : (organize_loop self post
        (⟨(organize_loop self pre sE).1.rootEntries.filter
            (fun x => x.name ≠ f),
          (organize_loop self pre sE).1.sub ++
            [(get_target_folder (path_extension f), f)]⟩ : FS)).2.filter
        (fun v => v.fname = f) = [] := by
      refine List.filter_eq_nil_iff.mpr ?_
      intro v hv
      simpa using loop_no_events_unnamed self post _ f hpost v hv
    have e3 : ([Event.moved f (get_target_folder (path_extension f))]).filter
        (fun v => v.fname = f) =
        [Event.moved f (get_target_folder (path_extension f))] := by
      simp [Event.fname]
    rw [e1, e2, e3]
    simp

/-- Witness for C1 (amended): `a.txt` on an otherwise empty root is
moved into `Documents`. -/
theorem organize_moves_file_amended_witness :
    (((FS.mk [⟨"a.txt", EntryKind.file⟩] []).rootEntries.map Entry.name).Nodup ∧
      path_extension "a.txt" ≠ "" ∧
      (get_target_folder (path_extension "a.txt"), "a.txt") ∉
        (FS.mk [⟨"a.txt", EntryKind.file⟩] []).sub ∧
      (organize_files (fun _ => none) none
        (FS.mk [⟨"a.txt", EntryKind.file⟩] [])).2 = none) ∧
    (get_target_folder (path_extension "a.txt"), "a.txt") ∈
      (organize_files (fun _ => none) none
        (FS.mk [⟨"a.txt", EntryKind.file⟩] [])).1.1.sub ∧
    (∀ x ∈ (organize_files (fun _ => none) none
        (FS.mk [⟨"a.txt", EntryKind.file⟩] [])).1.1.rootEntries,
      x.name ≠ "a.txt") ∧
    (organize_files (fun _ => none) none
        (FS.mk [⟨"a.txt", EntryKind.file⟩] [])).1.2.filter
        (fun v => v.fname = "a.txt") =
      [Event.moved "a.txt" (get_target_folder (path_extension "a.txt"))] :=
  ⟨⟨by decide, by decide, by decide, by decide⟩,
   organize_moves_file_amended (fun _ => none) none _ "a.txt" (by decide)
     (by decide) (by decide) (by decide) (by decide) (by decide) (by decide)⟩

/-- C1 counterexample: root holds a regular file `Music` and
`song.mp3`, whose target category is `Music`; `Music/song.mp3` does not
exist before the run and the run completes, yet afterwards `song.mp3`
is still at root and not at `Music/song.mp3` — the existence check
skipped folder creation because a file named `Music` was present, and
the rename then failed per-file. -/
theorem organize_moves_file_cex :
    get_target_folder (path_extension "song.mp3") = "Music" ∧
    ("Music", "song.mp3") ∉
      (FS.mk [⟨"Music", EntryKind.file⟩, ⟨"song.mp3", EntryKind.file⟩] []).sub ∧
    (organize_files (fun _ => none) none
      (FS.mk [⟨"Music", EntryKind.file⟩,
              ⟨"song.mp3", EntryKind.file⟩] [])).2 = none ∧
    ("Music", "song.mp3") ∉
      (organize_files (fun _ => none) none
        (FS.mk [⟨"Music", EntryKind.file⟩,
                ⟨"song.mp3", EntryKind.file⟩] [])).1.1.sub ∧
    Entry.mk "song.mp3" EntryKind.file ∈
      (organize_files (fun _ => none) none
        (FS.mk [⟨"Music", EntryKind.file⟩,
                ⟨"song.mp3", EntryKind.file⟩] [])).1.1.rootEntries := by
  decide

/-- C8: running organize a second time on the state produced by a
completed first run is a no-op: the filesystem state is unchanged, the
second run throws no error, and not a single move event is emitted —
files moved by the first run are inside category subfolders, which are
not rescanned, and files left at root are skipped again for the same
reasons. -/
theorem organize_idempotent (ce : String → Option String)
    (self : Option String) (s s1 : FS) (log1 : List Event)
    (hnd : (s.rootEntries.map Entry.name).Nodup)
    (h1 : organize_files ce self s = ((s1, log1), none)) :
    (organize_files ce self s1).1.1 = s1 ∧
    (organize_files ce self s1).2 = none ∧
    ∀ v ∈ (organize_files ce self s1).1.2, v.isMoved = false := by
  rcases hpair : ensure_folders ce s with ⟨sE, err⟩
  have hpair' : ensure_go ce catNames s = (sE, err) := hpair
  cases err with
  | some m =>
      rw [organize_files_of_fail hpair] at h1
      have h2 := congrArg Prod.snd h1
      cases h2
  | none =>
      rw [organize_files_of_ok hpair] at h1
      have hL : organize_loop self sE.rootEntries sE = (s1, log1) :=
        congrArg Prod.fst h1
      have hs1 : (organize_loop self sE.rootEntries sE).1 = s1 := by
        rw [hL]
      have hndE : (sE.rootEntries.map Entry.name).Nodup := by
        have h0 := ensure_go_nodup ce catNames s hnd
        rw [hpair'] at h0
        exact h0
      have hskip : ∀ e ∈ s1.rootEntries, e.kind = EntryKind.file →
          skipCond self s1 e := by
        intro e he hk
        have hemem : e ∈ (organize_loop self sE.rootEntries sE).1.rootEntries := by
          rw [hs1]
          exact he
        have hel : e ∈ sE.rootEntries :=
          (loop_root_sublist self sE.rootEntries sE).subset hemem
        have h2 := loop_remaining_skip self sE.rootEntries sE hndE
          (List.Sublist.refl _) e hemem hel hk
        rw [hs1] at h2
        exact h2
      have hcats : ∀ c ∈ catNames, ∃ x ∈ s1.rootEntries, x.name = c := by
        intro c hc
        have hcE : ∃ x ∈ sE.rootEntries, x.name = c :=
          ensure_go_exists_all ce catNames s sE hpair' c hc
        have hkeep := loop_keep_named_noext self sE.rootEntries sE c hcE
          (cat_noext c hc)
        rw [hs1] at hkeep
        exact hkeep
      have hens2 : ensure_folders ce s1 = (s1, none) :=
        ensure_go_noop ce catNames s1 hcats
      have horg2 : organize_files ce self s1 =
          (organize_loop self s1.rootEntries s1, none) :=
        organize_files_of_ok hens2
      have hnoop := loop_noop self s1.rootEntries s1 hskip
      refine ⟨?_, ?_, ?_⟩
      · rw [horg2]
        exact hnoop.1
      · rw [horg2]
      · rw [horg2]
        exact hnoop.2

/-- Witness for C8: after organizing a root holding `a.txt`, a second
run changes nothing and moves nothing. -/
theorem organize_idempotent_witness :
    (((FS.mk [⟨"a.txt", EntryKind.file⟩] []).rootEntries.map Entry.name).Nodup ∧
      organize_files (fun _ => none) none (FS.mk [⟨"a.txt", EntryKind.file⟩] []) =
        ((FS.mk [⟨"Programs", EntryKind.dir⟩, ⟨"Documents", EntryKind.dir⟩,
                 ⟨"Compressed", EntryKind.dir⟩, ⟨"Music", EntryKind.dir⟩,
                 ⟨"Video", EntryKind.dir⟩, ⟨"Images", EntryKind.dir⟩,
                 ⟨"Others", EntryKind.dir⟩] [("Documents", "a.txt")],
          [Event.moved "a.txt" "Documents"]), none)) ∧
    (organize_files (fun _ => none) none
        (FS.mk [⟨"Programs", EntryKind.dir⟩, ⟨"Documents", EntryKind.dir⟩,
                ⟨"Compressed", EntryKind.dir⟩, ⟨"Music", EntryKind.dir⟩,
                ⟨"Video", EntryKind.dir⟩, ⟨"Images", EntryKind.dir⟩,
                ⟨"Others", EntryKind.dir⟩] [("Documents", "a.txt")])).1.1 =
      FS.mk [⟨"Programs", EntryKind.dir⟩, ⟨"Documents", EntryKind.dir⟩,
             ⟨"Compressed", EntryKind.dir⟩, ⟨"Music", EntryKind.dir⟩,
             ⟨"Video", EntryKind.dir⟩, ⟨"Images", EntryKind.dir⟩,
             ⟨"Others", EntryKind.dir⟩] [("Documents", "a.txt")] ∧
    (organize_files (fun _ => none) none
        (FS.mk [⟨"Programs", EntryKind.dir⟩, ⟨"Documents", EntryKind.dir⟩,
                ⟨"Compressed", EntryKind.dir⟩, ⟨"Music", EntryKind.dir⟩,
                ⟨"Video", EntryKind.dir⟩, ⟨"Images", EntryKind.dir⟩,
                ⟨"Others", EntryKind.dir⟩] [("Documents", "a.txt")])).2 = none ∧
    ∀ v ∈ (organize_files (fun _ => none) none
        (FS.mk [⟨"Programs", EntryKind.dir⟩, ⟨"Documents", EntryKind.dir⟩,
                ⟨"Compressed", EntryKind.dir⟩, ⟨"Music", EntryKind.dir⟩,
                ⟨"Video", EntryKind.dir⟩, ⟨"Images", EntryKind.dir⟩,
                ⟨"Others", EntryKind.dir⟩] [("Documents", "a.txt")])).1.2,
      v.isMoved = false :=
  ⟨⟨by decide, by decide⟩,
   organize_idempotent (fun _ => none) none
     (FS.mk [⟨"a.txt", EntryKind.file⟩] [])
     (FS.mk [⟨"Programs", EntryKind.dir⟩, ⟨"Documents", EntryKind.dir⟩,
             ⟨"Compressed", EntryKind.dir⟩, ⟨"Music", EntryKind.dir⟩,
             ⟨"Video", EntryKind.dir⟩, ⟨"Images", EntryKind.dir⟩,
             ⟨"Others", EntryKind.dir⟩] [("Documents", "a.txt")])
     [Event.moved "a.txt" "Documents"]
     (by decide) (by decide)⟩
